import Mathlib

/-
Verification of the tag-extraction and page-generation logic of the
sphinx-tags extension (src/sphinx_tags/__init__.py).

Modelling conventions, applied uniformly:
  * Python strings are Lean `String`s; the handful of Python string
    operations the code uses (`endswith`, `split(",")`, `strip()`,
    `replace(' ', '_')`, lexicographic comparison) are modelled on the
    underlying character lists, which matches Python's code-point
    semantics and keeps everything kernel-computable.  `pathlib.Path`
    sort keys are ordered component-wise (`partsLt`), as
    `PurePath.__lt__` does; tag names are plain strings and compare
    code-point-wise (`lexLt`).
  * File paths are posix strings (forward slashes), as produced by the
    `glob(f"{srcdir}/**/*.{ext}")` discovery call: every scanned path is
    `srcdir ++ "/" ++ rest`.  `os.path.relpath(p, srcdir)` followed by
    `.as_posix()` is therefore modelled by dropping the `srcdir ++ "/"`
    prefix (`relpathFrom`).
  * The regular-expression scan of a source file (`finditer` of the
    dialect's marker pattern, lines 192-195/213) is an external-library
    call; a scanned file is modelled as its path together with the list
    of `group(1)` capture texts the dialect pattern yields, in match
    order.  Everything the code does with those captures (lines 212-214)
    is modelled exactly.
  * The Python dict `tags` preserves insertion order and has unique
    keys; it is modelled as an association list, with new keys appended
    at the end and in-place update of an existing key.
  * The output directory is modelled as an association list from file
    name to file content (a list of lines; the code writes
    `"\n".join(content)`).  Writing a file overwrites any file of the
    same name.
-/

/-- Model of Python `s.endswith(suffix)`: suffix test on the code points. -/
def pyEndsWith (s suffix : String) : Bool :=
  suffix.data.isSuffixOf s.data

/-- Model of Python `s.split(",")` (single-character separator). -/
def splitComma (s : String) : List String :=
  (s.data.splitOn ',').map String.mk

/-- Model of Python `s.strip()`: drop whitespace from both ends. -/
def pyStrip (s : String) : String :=
  String.mk (((s.data.dropWhile Char.isWhitespace).reverse.dropWhile
    Char.isWhitespace).reverse)

/-- Model of Python `s.replace(' ', '_')` (single-character pattern). -/
def underscores (s : String) : String :=
  String.mk (s.data.map (fun c => if c = ' ' then '_' else c))

/-- Lexicographic strict comparison of character lists: Python's `<` on
strings (code-point order), used for the tag-name sort key.  Path sort
keys compare component-wise instead, see `partsLt`. -/
def lexLt : List Char → List Char → Bool
  | [], [] => false
  | [], _ :: _ => true
  | _ :: _, [] => false
  | a :: as, b :: bs => decide (a < b) || (a == b && lexLt as bs)

/-- Lexicographic strict comparison of path-component sequences, the
components themselves compared as strings: Python's `<` on lists of
strings, which is how `pathlib.PurePath.__lt__` orders paths (it
compares the normcased - on posix, unchanged - path string split on the
separator, so `docs/a/b.rst` sorts before `docs/a.rst`). -/
def partsLt : List (List Char) → List (List Char) → Bool
  | [], [] => false
  | [], _ :: _ => true
  | _ :: _, [] => false
  | a :: as, b :: bs => lexLt a b || (a == b && partsLt as bs)

/-- Stable insertion of `x` into a list sorted by the strict comparison
`lt`: `x` is placed after every element strictly below it, hence before
any element of equal rank, as Python's stable `sorted` does. -/
def insertBy (lt : α → α → Bool) (x : α) : List α → List α
  | [] => [x]
  | y :: ys => if lt y x then y :: insertBy lt x ys else x :: y :: ys

/-- Model of Python `sorted` with a strict comparison `lt`: a stable
sort (stable sorts of a list under a fixed total preorder coincide). -/
def sortBy (lt : α → α → Bool) : List α → List α
  | [] => []
  | x :: xs => insertBy lt x (sortBy lt xs)

/-- Membership test with ranges for an fnmatch character class, e.g.
`a-z` is a range, a `-` at either end is literal. -/
def inClass : List Char → Char → Bool
  | a :: '-' :: b :: rest, c => (decide (a ≤ c) && decide (c ≤ b)) || inClass rest c
  | a :: rest, c => a == c || inClass rest c
  | [], _ => false

/-- Parse an fnmatch character class: `ps` is the pattern text after the
opening bracket.  Returns the negation flag, the class body and the rest
of the pattern; `none` when there is no closing bracket (in which case
fnmatch treats the `[` as a literal).  A `]` directly after `[` or `[!`
belongs to the class body. -/
def parseClass (ps : List Char) : Option (Bool × List Char × List Char) :=
  let neg := match ps with | '!' :: _ => true | _ => false
  let ps1 := if neg then ps.tail else ps
  match ps1 with
  | ']' :: ps2 =>
    match ps2.findIdx? (fun c => c == ']') with
    | none => none
    | some j => some (neg, ']' :: ps2.take j, ps2.drop (j + 1))
  | _ =>
    match ps1.findIdx? (fun c => c == ']') with
    | none => none
    | some j => some (neg, ps1.take j, ps1.drop (j + 1))

/-- Fuel-driven glob matcher: `*` matches any sequence, `?` any single
character, `[...]`/`[!...]` a character class.  Every recursive call
shrinks `pat.length + s.length`, so `pat.length + s.length + 1` fuel is
always enough; the fuel only makes the recursion structural. -/
def globMatchAux : Nat → List Char → List Char → Bool
  | 0, _, _ => false
  | _ + 1, [], s => s.isEmpty
  | fuel + 1, '*' :: ps, s =>
    globMatchAux fuel ps s ||
      (match s with
       | [] => false
       | _ :: s2 => globMatchAux fuel ('*' :: ps) s2)
  | fuel + 1, '?' :: ps, s =>
    (match s with
     | [] => false
     | _ :: s2 => globMatchAux fuel ps s2)
  | fuel + 1, '[' :: ps, s =>
    (match parseClass ps with
     | none =>
       match s with
       | [] => false
       | c :: s2 => c == '[' && globMatchAux fuel ps s2
     | some (neg, cls, rest) =>
       match s with
       | [] => false
       | c :: s2 => (inClass cls c != neg) && globMatchAux fuel rest s2)
  | fuel + 1, p :: ps, s =>
    (match s with
     | [] => false
     | c :: s2 => p == c && globMatchAux fuel ps s2)

/-- Model of `fnmatch.fnmatch(name, pat)` (posix case: no case folding). -/
def fnmatch (name pat : String) : Bool :=
  globMatchAux (pat.data.length + name.data.length + 1) pat.data name.data

/-- TagLinks._get_tag_color (lines 94-102): scan the configured
pattern-to-color mapping in iteration order, return the color of the
first pattern the tag matches, defaulting to "primary". -/
def get_tag_color (tag_colors : List (String × String)) (tag : String) : String :=
  match tag_colors with
  | [] => "primary"
  | (pattern, color) :: rest =>
    if fnmatch tag pattern then color else get_tag_color rest tag

/-- One scanned source document (class Entry, lines 190-214): its path
and its extracted tag list. -/
structure Entry where
  filepath : String
  tags : List String
deriving DecidableEq

/-- A tag with the entries that declare it (class Tag, lines 105-110). -/
structure Tag where
  name : String
  items : List Entry
deriving DecidableEq

/-- A discovered source file: its path and the `group(1)` texts of all
non-overlapping matches of its dialect's marker pattern, in match order
(the `re.finditer` call of line 213, treated as an external library). -/
structure SrcFile where
  path : String
  captures : List String
deriving DecidableEq

/-- Lines 212-214: for each regex match, split the captured text on
commas, strip each piece, and extend the tag list (empties included). -/
def extractTags (captures : List String) : List String :=
  captures.flatMap (fun m => (splitComma m).map pyStrip)

/-- The extension-dispatch test of lines 201-206: the three supported
source dialects. -/
def supportedPath (p : String) : Bool :=
  pyEndsWith p ".rst" || pyEndsWith p ".md" || pyEndsWith p ".ipynb"

/-- The message of the ValueError raised at lines 208-210. -/
def extensionErrorMsg : String :=
  "Unknown file extension. Currently, only .rst, .md .ipynb are supported."

/-- Entry.__init__ (lines 197-214): dispatch the marker pattern on the
file extension (raising on an unsupported one), then accumulate the
split-and-stripped tags of every match. -/
def Entry.init (f : SrcFile) : Except String Entry :=
  if pyEndsWith f.path ".rst" then Except.ok (Entry.mk f.path (extractTags f.captures))
  else if pyEndsWith f.path ".md" then Except.ok (Entry.mk f.path (extractTags f.captures))
  else if pyEndsWith f.path ".ipynb" then Except.ok (Entry.mk f.path (extractTags f.captures))
  else Except.error extensionErrorMsg

/-- Key-membership test of the registry dict (Python `tag in tag_dict`). -/
def hasKey : List (String × Tag) → String → Bool
  | [], _ => false
  | p :: ps, t => p.1 == t || hasKey ps t

/-- The item list stored under key `t` ([] when the key is absent):
observation function used to state registry facts. -/
def itemsOf : List (String × Tag) → String → List Entry
  | [], _ => []
  | p :: ps, t => if p.1 == t then p.2.items else itemsOf ps t

/-- One step of Entry.assign_to_tags (lines 218-221): create the Tag on
first encounter of the key, then append the entry to its item list. -/
def addToTag (tag_dict : List (String × Tag)) (t : String) (e : Entry) :
    List (String × Tag) :=
  if hasKey tag_dict t then
    tag_dict.map (fun p =>
      if p.1 == t then (p.1, Tag.mk p.2.name (p.2.items ++ [e])) else p)
  else tag_dict ++ [(t, Tag.mk t [e])]

/-- Entry.assign_to_tags (lines 216-221): register the entry under each
of its declared tag names, in declaration order. -/
def Entry.assign_to_tags (e : Entry) (tag_dict : List (String × Tag)) :
    List (String × Tag) :=
  e.tags.foldl (fun d t => addToTag d t e) tag_dict

/-- The loop of assign_entries (lines 283-286): construct each Entry (a
failure aborts the whole pass), register it, and append it to `pages`. -/
def assign_entries_aux : List SrcFile → List (String × Tag) → List Entry →
    Except String (List (String × Tag) × List Entry)
  | [], tag_dict, pages => Except.ok (tag_dict, pages)
  | f :: fs, tag_dict, pages =>
    match Entry.init f with
    | Except.error msg => Except.error msg
    | Except.ok entry =>
      assign_entries_aux fs (entry.assign_to_tags tag_dict) (pages ++ [entry])

/-- assign_entries (lines 274-287), taking the glob-discovered file list
as input (discovery itself is filesystem I/O). -/
def assign_entries (files : List SrcFile) :
    Except String (List (String × Tag) × List Entry) :=
  assign_entries_aux files [] []

/-- Model of `Path(os.path.relpath(p, srcdir)).as_posix()` (lines
163/180) for the paths this build produces, which all have the form
`srcdir ++ "/" ++ rest`: drop the `srcdir ++ "/"` prefix. -/
def relpathFrom (srcdir filepath : String) : String :=
  String.mk (filepath.data.drop (srcdir.data.length + 1))

/-- Path-key comparison used by `sorted(items, key=lambda i: i.filepath)`:
`filepath` is a `pathlib.Path`, whose `<` compares the sequence of path
components, not the raw path string. -/
def entryPathLt (a b : Entry) : Bool :=
  partsLt (a.filepath.data.splitOn '/') (b.filepath.data.splitOn '/')

/-- Name-key comparison used by `sorted(tags, key=lambda t: t.name)`. -/
def tagNameLt (a b : Tag) : Bool :=
  lexLt a.name.data b.name.data

/-- Tag.create_file (lines 112-187): produce the single per-tag page as
(file name, content lines); the file body written is the newline-join of
the lines.  The `tags_output_dir` argument only contributes to the write
path, which the flat directory model absorbs. -/
def Tag.create_file (self : Tag) (items : List Entry) (extension : List String)
    (tags_output_dir srcdir tags_page_title tags_page_header : String) :
    String × List String :=
  if extension.contains "md" then
    (underscores self.name ++ ".md",
      ["# " ++ tags_page_title ++ ": " ++ self.name,
       "",
       "```{toctree}",
       "---",
       "maxdepth: 1",
       "caption: " ++ tags_page_header,
       "---"]
      ++ items.map (fun item => "../" ++ relpathFrom srcdir item.filepath)
      ++ ["```", ""])
  else
    (underscores self.name ++ ".rst",
      [tags_page_title ++ ": " ++ self.name,
       String.mk (List.replicate (self.name.length + tags_page_title.length + 2) '#'),
       "",
       ".. toctree::",
       "    :maxdepth: 1",
       "    :caption: " ++ tags_page_header,
       ""]
      ++ (sortBy entryPathLt items).map
           (fun item => "    ../" ++ relpathFrom srcdir item.filepath)
      ++ [""])

/-- tagpage (lines 224-271): the overview page as (file name, content
lines).  Both dialect branches sort the registry values by tag name with
the same key; the `outdir` argument only contributes to the write path. -/
def tagpage (tags : List (String × Tag)) (outdir title : String)
    (extension : List String) (tags_index_head : String) : String × List String :=
  let tag_list := tags.map (fun p => p.2)
  if extension.contains "md" then
    ("tagsindex.md",
      ["(tagoverview)=",
       "",
       "# " ++ title,
       "",
       "```{toctree}",
       "---",
       "caption: " ++ tags_index_head,
       "maxdepth: 1",
       "---"]
      ++ (sortBy tagNameLt tag_list).map (fun tag =>
            tag.name ++ " (" ++ toString tag.items.length ++ ") <" ++
              underscores tag.name ++ ">")
      ++ ["```", ""])
  else
    ("tagsindex.rst",
      [":orphan:",
       "",
       ".. _tagoverview:",
       "",
       title,
       String.mk (List.replicate title.length '#'),
       "",
       ".. toctree::",
       "    :caption: " ++ tags_index_head,
       "    :maxdepth: 1",
       ""]
      ++ (sortBy tagNameLt tag_list).map (fun tag =>
            "    " ++ tag.name ++ " (" ++ toString tag.items.length ++ ") <" ++
              underscores tag.name ++ ".rst>")
      ++ [""])

/-- The recognized configuration surface (setup, lines 336-345) plus the
host-supplied source root. -/
structure AppConfig where
  tags_create_tags : Bool
  tags_output_dir : String
  tags_overview_title : String
  tags_extension : List String
  tags_intro_text : String
  tags_page_title : String
  tags_page_header : String
  tags_index_head : String
  tags_create_badges : Bool
  tags_badge_colors : List (String × String)
  srcdir : String

/-- The default configuration registered by setup (lines 336-345). -/
def setupConfig (srcdir : String) : AppConfig :=
  { tags_create_tags := false,
    tags_output_dir := "_tags",
    tags_overview_title := "Tags overview",
    tags_extension := ["rst"],
    tags_intro_text := "Tags:",
    tags_page_title := "My tags",
    tags_page_header := "With this tag",
    tags_index_head := "Tags",
    tags_create_badges := false,
    tags_badge_colors := [],
    srcdir := srcdir }

/-- The generation pass of update_tags (lines 303-322): one page per
registry tag, built from the full page list filtered on tag membership,
followed by the overview page. -/
def generatedPages (app : AppConfig) (files : List SrcFile) :
    Except String (List (String × List String)) :=
  match assign_entries files with
  | Except.error msg => Except.error msg
  | Except.ok (tags, pages) =>
    Except.ok
      ((tags.map (fun p =>
          p.2.create_file (pages.filter (fun item => item.tags.contains p.2.name))
            app.tags_extension app.tags_output_dir app.srcdir
            app.tags_page_title app.tags_page_header))
        ++ [tagpage tags app.tags_output_dir app.tags_overview_title
              app.tags_extension app.tags_index_head])

/-- The output directory: file name to content lines, unique names. -/
abbrev BuildDir := List (String × List String)

/-- The stale-page test of line 300: Python `file.endswith("md") or
file.endswith("rst")`. -/
def isGenerated (name : String) : Bool :=
  pyEndsWith name "md" || pyEndsWith name "rst"

/-- Lines 299-301: delete every previously generated page. -/
def removeStale (dir : BuildDir) : BuildDir :=
  dir.filter (fun f => !isGenerated f.1)

/-- Writing one file: overwrite any existing file of the same name. -/
def writeFileD (dir : BuildDir) (name : String) (content : List String) : BuildDir :=
  dir.filter (fun f => !(f.1 == name)) ++ [(name, content)]

/-- Write a batch of generated files in order. -/
def writeAll (dir : BuildDir) (files : List (String × List String)) : BuildDir :=
  files.foldl (fun d f => writeFileD d f.1 f.2) dir

/-- update_tags (lines 290-327): when enabled, clear the stale generated
pages and write the regenerated ones; when disabled, touch nothing. -/
def update_tags (app : AppConfig) (files : List SrcFile) (dir : BuildDir) :
    Except String BuildDir :=
  if app.tags_create_tags then
    match generatedPages app files with
    | Except.error msg => Except.error msg
    | Except.ok gen => Except.ok (writeAll (removeStale dir) gen)
  else Except.ok dir

/-- Registry invariant of the data-model section of the spec: every key
maps to a Tag of the same name, and every Entry in a Tag's item list
declares that tag's name. -/
def RegistryInv (tag_dict : List (String × Tag)) : Prop :=
  ∀ p ∈ tag_dict, p.2.name = p.1 ∧ ∀ x ∈ p.2.items, p.2.name ∈ x.tags

/-- Appending strings concatenates their character lists. -/
theorem data_append (a b : String) : (a ++ b).data = a.data ++ b.data := by
  cases a; cases b; rfl

/-- A name built as `x ++ ".md"` passes the Python `endswith("md")` test. -/
theorem pyEndsWith_append_md (x : String) : pyEndsWith (x ++ ".md") "md" = true := by
  simp only [pyEndsWith, data_append, List.isSuffixOf_iff_suffix]
  exact ⟨x.data ++ [Char.ofNat 46], by simp⟩

/-- A name built as `x ++ ".rst"` passes the Python `endswith("rst")` test. -/
theorem pyEndsWith_append_rst (x : String) : pyEndsWith (x ++ ".rst") "rst" = true := by
  simp only [pyEndsWith, data_append, List.isSuffixOf_iff_suffix]
  exact ⟨x.data ++ [Char.ofNat 46], by simp⟩

/-- Strict lexicographic comparison is asymmetric. -/
theorem lexLt_asymm : ∀ (a b : List Char), lexLt a b = true → lexLt b a = false
  | [], [], h => by simp [lexLt] at h
  | [], _ :: _, _ => by simp [lexLt]
  | _ :: _, [], h => by simp [lexLt] at h
  | x :: xs, y :: ys, h => by
    simp only [lexLt, Bool.or_eq_true, Bool.and_eq_true, decide_eq_true_eq,
      beq_iff_eq] at h
    rcases h with hlt | ⟨heq, hrec⟩
    · simp only [lexLt, Bool.or_eq_false_iff, Bool.and_eq_false_iff]
      exact ⟨decide_eq_false (not_lt.mpr (le_of_lt hlt)),
        Or.inl (beq_eq_false_iff_ne.mpr (ne_of_gt hlt))⟩
    · subst heq
      simp only [lexLt, Bool.or_eq_false_iff, Bool.and_eq_false_iff]
      exact ⟨decide_eq_false (lt_irrefl x),
        Or.inr (lexLt_asymm xs ys hrec)⟩

/-- From `¬ c < b` and `c < a` conclude `b < a`, lexicographically. -/
theorem lexLt_le_lt_trans : ∀ (c b a : List Char),
    lexLt c b = false → lexLt c a = true → lexLt b a = true
  | [], b, a, h1, h2 => by
    cases b with
    | nil => exact h2
    | cons y ys => simp [lexLt] at h1
  | _ :: _, _, [], _, h2 => by
    cases ‹List Char› <;> simp [lexLt] at h2
  | z :: zs, b, x :: xs, h1, h2 => by
    cases b with
    | nil => simp [lexLt]
    | cons y ys =>
      simp only [lexLt, Bool.or_eq_false_iff, Bool.and_eq_false_iff,
        decide_eq_false_iff_not, beq_eq_false_iff_ne] at h1
      simp only [lexLt, Bool.or_eq_true, Bool.and_eq_true, decide_eq_true_eq,
        beq_iff_eq] at h2 ⊢
      obtain ⟨hzy, h1b⟩ := h1
      rcases h2 with hza | ⟨hzx, hrec⟩
      · left
        exact lt_of_le_of_lt (not_lt.mp hzy) hza
      · subst hzx
        rcases lt_or_eq_of_le (not_lt.mp hzy) with hyz | hyz
        · exact Or.inl hyz
        · subst hyz
          rcases h1b with hne | hbs
          · exact absurd rfl hne
          · exact Or.inr ⟨rfl, lexLt_le_lt_trans zs ys xs hbs hrec⟩

/-- Stable insertion produces a permutation of consing. -/
theorem insertBy_perm (lt : α → α → Bool) (x : α) :
    ∀ l : List α, (insertBy lt x l).Perm (x :: l)
  | [] => List.Perm.refl _
  | y :: ys => by
    simp only [insertBy]
    by_cases h : lt y x = true
    · simp only [h, if_true]
      exact ((insertBy_perm lt x ys).cons y).trans (List.Perm.swap x y ys)
    · simp only [h, if_neg]
      simp [Bool.not_eq_true] at h
      simp [h]

/-- sortBy permutes its input. -/
theorem sortBy_perm (lt : α → α → Bool) : ∀ l : List α, (sortBy lt l).Perm l
  | [] => List.Perm.refl _
  | x :: xs =>
    (insertBy_perm lt x (sortBy lt xs)).trans ((sortBy_perm lt xs).cons x)

/-- Stable insertion preserves sortedness (no later element strictly
below an earlier one), given asymmetry and the mixed transitivity law. -/
theorem insertBy_pairwise (lt : α → α → Bool)
    (hasym : ∀ a b, lt a b = true → lt b a = false)
    (htrans : ∀ c b a, lt c b = false → lt c a = true → lt b a = true)
    (x : α) : ∀ l : List α, l.Pairwise (fun a b => lt b a = false) →
      (insertBy lt x l).Pairwise (fun a b => lt b a = false)
  | [], _ => by simp [insertBy]
  | y :: ys, hl => by
    simp only [insertBy]
    rcases List.pairwise_cons.mp hl with ⟨hy, hys⟩
    by_cases h : lt y x = true
    · simp only [h, if_true]
      refine List.pairwise_cons.mpr ⟨?_, insertBy_pairwise lt hasym htrans x ys hys⟩
      intro z hz
      rcases List.mem_cons.mp ((insertBy_perm lt x ys).mem_iff.mp hz) with hzx | hzys
      · subst hzx; exact hasym y z h
      · exact hy z hzys
    · simp only [h, if_neg]
      simp only [Bool.not_eq_true] at h
      refine List.pairwise_cons.mpr ⟨?_, hl⟩
      intro z hz
      rcases List.mem_cons.mp hz with hzy | hzys
      · subst hzy; exact h
      · by_contra hzx
        simp only [Bool.not_eq_false] at hzx
        exact absurd (htrans z y x (hy z hzys) hzx) (by simp [h])

/-- sortBy sorts: no later element is strictly below an earlier one. -/
theorem sortBy_pairwise (lt : α → α → Bool)
    (hasym : ∀ a b, lt a b = true → lt b a = false)
    (htrans : ∀ c b a, lt c b = false → lt c a = true → lt b a = true) :
    ∀ l : List α, (sortBy lt l).Pairwise (fun a b => lt b a = false)
  | [] => by simp [sortBy]
  | x :: xs => by
    simp only [sortBy]
    exact insertBy_pairwise lt hasym htrans x (sortBy lt xs)
      (sortBy_pairwise lt hasym htrans xs)

/-- String comparison is irreflexive. -/
theorem lexLt_irrefl : ∀ a : List Char, lexLt a a = false
  | [] => rfl
  | x :: xs => by
    simp only [lexLt, Bool.or_eq_false_iff, Bool.and_eq_false_iff]
    exact ⟨decide_eq_false (lt_irrefl x), Or.inr (lexLt_irrefl xs)⟩

/-- Two strings neither of which is below the other are equal. -/
theorem lexLt_connex : ∀ (a b : List Char),
    lexLt a b = false → lexLt b a = false → a = b
  | [], [], _, _ => rfl
  | [], _ :: _, h1, _ => by simp [lexLt] at h1
  | _ :: _, [], _, h2 => by simp [lexLt] at h2
  | x :: xs, y :: ys, h1, h2 => by
    simp only [lexLt, Bool.or_eq_false_iff, Bool.and_eq_false_iff,
      decide_eq_false_iff_not, beq_eq_false_iff_ne] at h1 h2
    obtain ⟨hxy, h1b⟩ := h1
    obtain ⟨hyx, h2b⟩ := h2
    have hxy2 : x = y := le_antisymm (not_lt.mp hyx) (not_lt.mp hxy)
    subst hxy2
    rcases h1b with hne | hxs
    · exact absurd rfl hne
    · rcases h2b with hne | hys
      · exact absurd rfl hne
      · rw [lexLt_connex xs ys hxs hys]

/-- Component-sequence comparison is asymmetric. -/
theorem partsLt_asymm : ∀ (a b : List (List Char)),
    partsLt a b = true → partsLt b a = false
  | [], [], h => by simp [partsLt] at h
  | [], _ :: _, _ => by simp [partsLt]
  | _ :: _, [], h => by simp [partsLt] at h
  | x :: xs, y :: ys, h => by
    simp only [partsLt, Bool.or_eq_true, Bool.and_eq_true, beq_iff_eq] at h
    rcases h with hlt | ⟨heq, hrec⟩
    · simp only [partsLt, Bool.or_eq_false_iff, Bool.and_eq_false_iff]
      refine ⟨lexLt_asymm x y hlt, Or.inl ?_⟩
      refine beq_eq_false_iff_ne.mpr ?_
      intro hh
      rw [hh] at hlt
      rw [lexLt_irrefl] at hlt
      exact Bool.noConfusion hlt
    · subst heq
      simp only [partsLt, Bool.or_eq_false_iff, Bool.and_eq_false_iff]
      exact ⟨lexLt_irrefl x, Or.inr (partsLt_asymm xs ys hrec)⟩

/-- From `¬ c < b` and `c < a` conclude `b < a`, component-wise. -/
theorem partsLt_le_lt_trans : ∀ (c b a : List (List Char)),
    partsLt c b = false → partsLt c a = true → partsLt b a = true
  | [], b, a, h1, h2 => by
    cases b with
    | nil => exact h2
    | cons y ys => simp [partsLt] at h1
  | _ :: _, _, [], _, h2 => by
    cases ‹List (List Char)› <;> simp [partsLt] at h2
  | z :: zs, b, x :: xs, h1, h2 => by
    cases b with
    | nil => simp [partsLt]
    | cons y ys =>
      simp only [partsLt, Bool.or_eq_false_iff, Bool.and_eq_false_iff,
        beq_eq_false_iff_ne] at h1
      simp only [partsLt, Bool.or_eq_true, Bool.and_eq_true, beq_iff_eq] at h2 ⊢
      obtain ⟨hzy, h1b⟩ := h1
      rcases h2 with hza | ⟨hzx, hrec⟩
      · exact Or.inl (lexLt_le_lt_trans z y x hzy hza)
      · subst hzx
        by_cases hyz : lexLt y z = true
        · exact Or.inl hyz
        · have hyz2 : lexLt y z = false := by simpa using hyz
          have hzy2 : z = y := lexLt_connex z y hzy hyz2
          subst hzy2
          rcases h1b with hne | hbs
          · exact absurd rfl hne
          · exact Or.inr ⟨rfl, partsLt_le_lt_trans zs ys xs hbs hrec⟩

/-- Asymmetry of the path-key comparison. -/
theorem entryPathLt_asymm (a b : Entry) (h : entryPathLt a b = true) :
    entryPathLt b a = false :=
  partsLt_asymm _ _ h

/-- Mixed transitivity of the path-key comparison. -/
theorem entryPathLt_trans (c b a : Entry) (h1 : entryPathLt c b = false)
    (h2 : entryPathLt c a = true) : entryPathLt b a = true :=
  partsLt_le_lt_trans _ _ _ h1 h2

/-- Asymmetry of the name-key comparison. -/
theorem tagNameLt_asymm (a b : Tag) (h : tagNameLt a b = true) :
    tagNameLt b a = false :=
  lexLt_asymm _ _ h

/-- Mixed transitivity of the name-key comparison. -/
theorem tagNameLt_trans (c b a : Tag) (h1 : tagNameLt c b = false)
    (h2 : tagNameLt c a = true) : tagNameLt b a = true :=
  lexLt_le_lt_trans _ _ _ h1 h2

/-- String equality tests commute. -/
theorem strBeq_comm (a b : String) : (a == b) = (b == a) := by
  by_cases h : a = b
  · subst h; rfl
  · rw [beq_eq_false_iff_ne.mpr h, beq_eq_false_iff_ne.mpr (Ne.symm h)]

/-- Updating the item list of one key leaves the key set unchanged. -/
theorem hasKey_map_upd (d : List (String × Tag)) (u : String) (e : Entry) (t : String) :
    hasKey (d.map (fun p =>
      if p.1 == u then (p.1, Tag.mk p.2.name (p.2.items ++ [e])) else p)) t
      = hasKey d t := by
  induction d with
  | nil => rfl
  | cons p ps ih =>
    simp only [List.map_cons, hasKey]
    rw [ih]
    by_cases hp : (p.1 == u) = true
    · rw [if_pos hp]
    · rw [if_neg hp]

/-- Appending a single pair adds exactly its key. -/
theorem hasKey_append_single (d : List (String × Tag)) (u : String) (tg : Tag)
    (t : String) : hasKey (d ++ [(u, tg)]) t = (hasKey d t || u == t) := by
  induction d with
  | nil => simp [hasKey]
  | cons p ps ih => simp [hasKey, ih, Bool.or_assoc]

/-- Key set after one registration step. -/
theorem hasKey_addToTag (d : List (String × Tag)) (u : String) (e : Entry)
    (t : String) : hasKey (addToTag d u e) t = (hasKey d t || t == u) := by
  unfold addToTag
  by_cases hk : hasKey d u = true
  · rw [if_pos hk, hasKey_map_upd]
    by_cases htu : t = u
    · subst htu; simp [hk]
    · simp [htu]
  · rw [if_neg hk, hasKey_append_single, strBeq_comm]

/-- An absent key observes an empty item list. -/
theorem itemsOf_nil_of_not_hasKey (d : List (String × Tag)) (t : String)
    (h : hasKey d t = false) : itemsOf d t = [] := by
  induction d with
  | nil => rfl
  | cons p ps ih =>
    simp only [hasKey, Bool.or_eq_false_iff] at h
    simp [itemsOf, h.1, ih h.2]

/-- Item lists observed through the in-place update of key `u`. -/
theorem itemsOf_map_upd (d : List (String × Tag)) (u : String) (e : Entry)
    (t : String) :
    itemsOf (d.map (fun p =>
      if p.1 == u then (p.1, Tag.mk p.2.name (p.2.items ++ [e])) else p)) t
      = if t = u ∧ hasKey d t = true then itemsOf d t ++ [e] else itemsOf d t := by
  induction d with
  | nil => simp [itemsOf, hasKey]
  | cons p ps ih =>
    simp only [List.map_cons, itemsOf]
    rw [ih]
    by_cases hpu : (p.1 == u) = true
    · rw [if_pos hpu]
      by_cases hpt : (p.1 == t) = true
      · have ht : p.1 = t := beq_iff_eq.mp hpt
        have htu : t = u := by rw [← ht]; exact beq_iff_eq.mp hpu
        have hpu2 : p.1 = u := ht.trans htu
        simp [hpt, htu, hpu2, hasKey]
      · have htu : ¬ t = u :=
          fun hh => hpt (beq_iff_eq.mpr ((beq_iff_eq.mp hpu).trans hh.symm))
        simp [hpt, htu, hasKey]
    · rw [if_neg hpu]
      by_cases hpt : (p.1 == t) = true
      · have htu : ¬ t = u :=
          fun hh => hpu (beq_iff_eq.mpr ((beq_iff_eq.mp hpt).trans hh))
        simp [hpt, htu, hasKey]
      · simp [hpt, hasKey]

/-- Item lists observed through appending a fresh key. -/
theorem itemsOf_append_single (d : List (String × Tag)) (u : String) (tg : Tag)
    (t : String) :
    itemsOf (d ++ [(u, tg)]) t =
      if hasKey d t = true then itemsOf d t
      else if (u == t) = true then tg.items else [] := by
  induction d with
  | nil => simp [itemsOf, hasKey]
  | cons p ps ih =>
    by_cases hpt : (p.1 == t) = true
    · simp [itemsOf, hasKey, hpt]
    · simp [itemsOf, hasKey, hpt, ih]

/-- One registration step appends the entry to exactly the item list of
the registered key. -/
theorem itemsOf_addToTag (d : List (String × Tag)) (u : String) (e : Entry)
    (t : String) :
    itemsOf (addToTag d u e) t =
      if t = u then itemsOf d t ++ [e] else itemsOf d t := by
  unfold addToTag
  by_cases hk : hasKey d u = true
  · rw [if_pos hk, itemsOf_map_upd]
    by_cases htu : t = u
    · subst htu; simp [hk]
    · simp [htu]
  · rw [if_neg hk, itemsOf_append_single]
    by_cases htu : t = u
    · subst htu
      have h0 : hasKey d t = false := by simpa using hk
      simp [h0, itemsOf_nil_of_not_hasKey d t h0]
    · by_cases hkt : hasKey d t = true
      · simp [hkt, htu]
      · have h0 : hasKey d t = false := by simpa using hkt
        have hut : (u == t) = false :=
          beq_eq_false_iff_ne.mpr (fun hh => htu hh.symm)
        simp [h0, hut, htu, itemsOf_nil_of_not_hasKey d t h0]

/-- Registering an entry under a tag-name list appends one copy of the
entry per occurrence of `t` in that list. -/
theorem itemsOf_foldl (e : Entry) (t : String) :
    ∀ (ts : List String) (d : List (String × Tag)),
      itemsOf (ts.foldl (fun d u => addToTag d u e) d) t
        = itemsOf d t ++ List.replicate (ts.count t) e
  | [], d => by simp
  | u :: ts, d => by
    rw [List.foldl_cons, itemsOf_foldl e t ts (addToTag d u e), itemsOf_addToTag]
    by_cases htu : t = u
    · subst htu
      simp [List.count_cons, List.replicate_succ]
    · have : (u == t) = false := beq_eq_false_iff_ne.mpr (fun hh => htu hh.symm)
      simp [htu, List.count_cons, this]

/-- Entry.assign_to_tags appends one copy of the entry per duplicate
declaration of the tag. -/
theorem itemsOf_assign_to_tags (e : Entry) (d : List (String × Tag)) (t : String) :
    itemsOf (e.assign_to_tags d) t =
      itemsOf d t ++ List.replicate (e.tags.count t) e :=
  itemsOf_foldl e t e.tags d

/-- Key set after registering an entry under a tag-name list. -/
theorem hasKey_foldl (e : Entry) (t : String) :
    ∀ (ts : List String) (d : List (String × Tag)),
      hasKey (ts.foldl (fun d u => addToTag d u e) d) t
        = (hasKey d t || ts.contains t)
  | [], d => by simp
  | u :: ts, d => by
    rw [List.foldl_cons, hasKey_foldl e t ts _, hasKey_addToTag, Bool.or_assoc,
      List.contains_cons]

/-- Key set after Entry.assign_to_tags: the old keys plus the entry's tags. -/
theorem hasKey_assign_to_tags (e : Entry) (d : List (String × Tag)) (t : String) :
    hasKey (e.assign_to_tags d) t = (hasKey d t || e.tags.contains t) :=
  hasKey_foldl e t e.tags d

/-- One registration step preserves the registry invariant, provided the
key being registered is one of the entry's declared tags. -/
theorem registryInv_addToTag (d : List (String × Tag)) (u : String) (e : Entry)
    (hu : u ∈ e.tags) (h : RegistryInv d) : RegistryInv (addToTag d u e) := by
  unfold addToTag
  by_cases hk : hasKey d u = true
  · rw [if_pos hk]
    intro p hp
    rcases List.mem_map.mp hp with ⟨q, hq, hqe⟩
    rcases h q hq with ⟨hname, hitems⟩
    by_cases hqu : (q.1 == u) = true
    · rw [if_pos hqu] at hqe
      subst hqe
      refine ⟨hname, ?_⟩
      intro x hx
      rcases List.mem_append.mp hx with hx1 | hx2
      · exact hitems x hx1
      · have hxe : x = e := List.mem_singleton.mp hx2
        subst hxe
        rw [hname, beq_iff_eq.mp hqu]
        exact hu
    · rw [if_neg hqu] at hqe
      subst hqe
      exact ⟨hname, hitems⟩
  · rw [if_neg hk]
    intro p hp
    rcases List.mem_append.mp hp with hp1 | hp2
    · exact h p hp1
    · have hpe : p = (u, Tag.mk u [e]) := List.mem_singleton.mp hp2
      subst hpe
      refine ⟨rfl, ?_⟩
      intro x hx
      have hxe : x = e := List.mem_singleton.mp hx
      subst hxe
      exact hu

/-- Registration of an entry preserves the registry invariant at every
intermediate step of the per-tag fold. -/
theorem registryInv_foldl (e : Entry) :
    ∀ (ts : List String) (d : List (String × Tag)),
      (∀ u ∈ ts, u ∈ e.tags) → RegistryInv d →
      RegistryInv (ts.foldl (fun d u => addToTag d u e) d)
  | [], _, _, h => h
  | u :: ts, d, hts, h => by
    rw [List.foldl_cons]
    exact registryInv_foldl e ts _ (fun v hv => hts v (List.mem_cons_of_mem u hv))
      (registryInv_addToTag d u e (hts u (List.mem_cons_self u ts)) h)

/-- Entry.assign_to_tags preserves the registry invariant. -/
theorem registryInv_assign_to_tags (e : Entry) (d : List (String × Tag))
    (h : RegistryInv d) : RegistryInv (e.assign_to_tags d) :=
  registryInv_foldl e e.tags d (fun _ hv => hv) h

/-- A present key is witnessed by a pair whose stored items are the
observed item list. -/
theorem exists_pair_of_hasKey : ∀ (d : List (String × Tag)) (t : String),
    hasKey d t = true → ∃ tg, (t, tg) ∈ d ∧ tg.items = itemsOf d t
  | [], t, h => by simp [hasKey] at h
  | p :: ps, t, h => by
    by_cases hp : (p.1 == t) = true
    · have hp2 : p.1 = t := beq_iff_eq.mp hp
      refine ⟨p.2, ?_, by simp [itemsOf, hp]⟩
      rw [← hp2]
      exact Prod.mk.eta ▸ List.mem_cons_self p ps
    · simp only [hasKey, Bool.or_eq_true] at h
      rcases h with h1 | h2
      · exact absurd h1 hp
      · obtain ⟨tg, htg, hit⟩ := exists_pair_of_hasKey ps t h2
        exact ⟨tg, List.mem_cons_of_mem p htg, by simp [itemsOf, hp, hit]⟩

/-- A supported path always constructs successfully, with the
accumulated split-and-stripped tags. -/
theorem entry_init_ok_of_supported (f : SrcFile) (h : supportedPath f.path = true) :
    Entry.init f = Except.ok (Entry.mk f.path (extractTags f.captures)) := by
  unfold Entry.init
  split_ifs with h1 h2 h3
  · rfl
  · rfl
  · rfl
  · exfalso
    simp [supportedPath, h1, h2, h3] at h

/-- Whatever branch succeeded, a constructed Entry is determined by the
path and captures. -/
theorem entry_init_ok_eq (f : SrcFile) (e : Entry)
    (h : Entry.init f = Except.ok e) :
    e = Entry.mk f.path (extractTags f.captures) := by
  unfold Entry.init at h
  split_ifs at h <;> exact ((Except.ok.injEq _ _).mp h).symm

/-- An unsupported path fails with the fixed error message. -/
theorem entry_init_error (f : SrcFile) (h : supportedPath f.path = false) :
    Entry.init f = Except.error extensionErrorMsg := by
  unfold Entry.init
  simp only [supportedPath, Bool.or_eq_false_iff] at h
  split_ifs with h1 h2 h3
  · simp [h.1.1] at h1
  · simp [h.1.2] at h2
  · simp [h.2] at h3
  · rfl

/-- Every already-collected page survives the loop, and every input file
constructs successfully and lands in the final page list. -/
theorem assign_aux_pages : ∀ (fs : List SrcFile) (d : List (String × Tag))
    (ps : List Entry) (tags : List (String × Tag)) (pages : List Entry),
    assign_entries_aux fs d ps = Except.ok (tags, pages) →
    (∀ x ∈ ps, x ∈ pages) ∧
      (∀ f ∈ fs, ∃ e, Entry.init f = Except.ok e ∧ e ∈ pages)
  | [], d, ps, tags, pages, h => by
    simp only [assign_entries_aux, Except.ok.injEq, Prod.mk.injEq] at h
    obtain ⟨h1, h2⟩ := h
    subst h2
    exact ⟨fun x hx => hx, by simp⟩
  | f :: fs, d, ps, tags, pages, h => by
    simp only [assign_entries_aux] at h
    cases hinit : Entry.init f with
    | error msg => rw [hinit] at h; exact Except.noConfusion h
    | ok e =>
      rw [hinit] at h
      obtain ⟨hps, hfs⟩ := assign_aux_pages fs _ _ tags pages h
      refine ⟨fun x hx => hps x (List.mem_append_left _ hx), ?_⟩
      intro g hg
      rcases List.mem_cons.mp hg with hgf | hg2
      · subst hgf
        exact ⟨e, hinit, hps e (List.mem_append_right _ (List.mem_singleton.mpr rfl))⟩
      · exact hfs g hg2

/-- If every collected page's tags are keys of the accumulator, every
final page's tags are keys of the final registry. -/
theorem assign_aux_keys : ∀ (fs : List SrcFile) (d : List (String × Tag))
    (ps : List Entry) (tags : List (String × Tag)) (pages : List Entry),
    assign_entries_aux fs d ps = Except.ok (tags, pages) →
    (∀ x ∈ ps, ∀ t ∈ x.tags, hasKey d t = true) →
    (∀ x ∈ pages, ∀ t ∈ x.tags, hasKey tags t = true)
  | [], d, ps, tags, pages, h, hps => by
    simp only [assign_entries_aux, Except.ok.injEq, Prod.mk.injEq] at h
    obtain ⟨h1, h2⟩ := h
    subst h1; subst h2
    exact hps
  | f :: fs, d, ps, tags, pages, h, hps => by
    simp only [assign_entries_aux] at h
    cases hinit : Entry.init f with
    | error msg => rw [hinit] at h; exact Except.noConfusion h
    | ok e =>
      rw [hinit] at h
      refine assign_aux_keys fs _ _ tags pages h ?_
      intro x hx t ht
      rw [hasKey_assign_to_tags]
      rcases List.mem_append.mp hx with hx1 | hx2
      · rw [hps x hx1 t ht, Bool.true_or]
      · have hxe : x = e := List.mem_singleton.mp hx2
        subst hxe
        have hc : x.tags.contains t = true := by
          show x.tags.elem t = true
          exact List.elem_iff.mpr ht
        rw [hc, Bool.or_true]

/-- The registry invariant holds along the whole construction loop. -/
theorem assign_aux_inv : ∀ (fs : List SrcFile) (d : List (String × Tag))
    (ps : List Entry) (tags : List (String × Tag)) (pages : List Entry),
    assign_entries_aux fs d ps = Except.ok (tags, pages) →
    RegistryInv d → RegistryInv tags
  | [], d, ps, tags, pages, h, hd => by
    simp only [assign_entries_aux, Except.ok.injEq, Prod.mk.injEq] at h
    obtain ⟨h1, h2⟩ := h
    subst h1
    exact hd
  | f :: fs, d, ps, tags, pages, h, hd => by
    simp only [assign_entries_aux] at h
    cases hinit : Entry.init f with
    | error msg => rw [hinit] at h; exact Except.noConfusion h
    | ok e =>
      rw [hinit] at h
      exact assign_aux_inv fs _ _ tags pages h (registryInv_assign_to_tags e d hd)

/-- One unsupported file anywhere in the list aborts the whole loop with
the fixed error message. -/
theorem assign_aux_error : ∀ (fs : List SrcFile) (d : List (String × Tag))
    (ps : List Entry), (∃ f ∈ fs, supportedPath f.path = false) →
    assign_entries_aux fs d ps = Except.error extensionErrorMsg
  | [], _, _, h => by simp at h
  | g :: fs, d, ps, h => by
    by_cases hg : supportedPath g.path = true
    · simp only [assign_entries_aux, entry_init_ok_of_supported g hg]
      apply assign_aux_error fs
      rcases h with ⟨f, hf, hbad⟩
      rcases List.mem_cons.mp hf with hfg | hf2
      · subst hfg
        rw [hg] at hbad
        exact absurd hbad (by simp)
      · exact ⟨f, hf2, hbad⟩
    · have hg2 : supportedPath g.path = false := by simpa using hg
      simp only [assign_entries_aux, entry_init_error g hg2]

/-- Overwriting a generated-named file does not change the set of
non-generated files. -/
theorem removeStale_writeFileD (d : BuildDir) (n : String) (c : List String)
    (h : isGenerated n = true) : removeStale (writeFileD d n c) = removeStale d := by
  unfold removeStale writeFileD
  rw [List.filter_append, List.filter_filter]
  have h2 : List.filter (fun f => !isGenerated f.1) [(n, c)] = [] := by
    simp [h]
  rw [h2, List.append_nil]
  apply List.filter_congr
  intro a _
  by_cases ha : isGenerated a.1 = true
  · simp [ha]
  · have ha2 : isGenerated a.1 = false := by simpa using ha
    have hne : (a.1 == n) = false := by
      refine beq_eq_false_iff_ne.mpr ?_
      intro hh
      rw [hh, h] at ha2
      exact absurd ha2 (by decide)
    simp [ha2, hne]

/-- Writing any batch of generated-named files does not change the set
of non-generated files. -/
theorem removeStale_writeAll : ∀ (gs : List (String × List String)) (d : BuildDir),
    (∀ g ∈ gs, isGenerated g.1 = true) →
    removeStale (writeAll d gs) = removeStale d
  | [], d, _ => rfl
  | g :: gs, d, h => by
    have hg : isGenerated g.1 = true := h g (List.mem_cons_self g gs)
    show removeStale (writeAll (writeFileD d g.1 g.2) gs) = removeStale d
    rw [removeStale_writeAll gs _ (fun x hx => h x (List.mem_cons_of_mem g hx)),
      removeStale_writeFileD d g.1 g.2 hg]

/-- Clearing stale pages twice equals clearing once. -/
theorem removeStale_idem (d : BuildDir) :
    removeStale (removeStale d) = removeStale d := by
  unfold removeStale
  rw [List.filter_filter]
  apply List.filter_congr
  intro a _
  by_cases ha : isGenerated a.1 = true <;> simp [ha]

/-- The single file name a per-tag page generation emits: the
underscored tag name with the dialect picked by the either/or test. -/
theorem create_file_fst (tg : Tag) (items : List Entry) (extension : List String)
    (tod srcdir tpt tph : String) :
    (tg.create_file items extension tod srcdir tpt tph).1 =
      underscores tg.name ++ (if extension.contains "md" then ".md" else ".rst") := by
  unfold Tag.create_file
  by_cases h : extension.contains "md" = true
  · rw [if_pos h, if_pos h]
  · rw [if_neg h, if_neg h]

/-- Every per-tag page name passes the stale-page test. -/
theorem create_file_isGenerated (tg : Tag) (items : List Entry)
    (extension : List String) (tod srcdir tpt tph : String) :
    isGenerated (tg.create_file items extension tod srcdir tpt tph).1 = true := by
  rw [create_file_fst]
  by_cases h : extension.contains "md" = true
  · rw [if_pos h]
    unfold isGenerated
    rw [pyEndsWith_append_md, Bool.true_or]
  · rw [if_neg h]
    unfold isGenerated
    rw [pyEndsWith_append_rst, Bool.or_true]

/-- The overview page's file name, by dialect. -/
theorem tagpage_fst (tags : List (String × Tag)) (outdir title : String)
    (extension : List String) (tih : String) :
    (tagpage tags outdir title extension tih).1 =
      (if extension.contains "md" then "tagsindex.md" else "tagsindex.rst") := by
  unfold tagpage
  by_cases h : extension.contains "md" = true
  · rw [if_pos h, if_pos h]
  · rw [if_neg h, if_neg h]

/-- The overview page name passes the stale-page test. -/
theorem tagpage_isGenerated (tags : List (String × Tag)) (outdir title : String)
    (extension : List String) (tih : String) :
    isGenerated (tagpage tags outdir title extension tih).1 = true := by
  rw [tagpage_fst]
  by_cases h : extension.contains "md" = true
  · rw [if_pos h]
    decide
  · rw [if_neg h]
    decide

/-- Every file the generation pass emits has a generated-looking name. -/
theorem generatedPages_names (app : AppConfig) (files : List SrcFile)
    (gen : List (String × List String))
    (h : generatedPages app files = Except.ok gen) :
    ∀ g ∈ gen, isGenerated g.1 = true := by
  unfold generatedPages at h
  cases ha : assign_entries files with
  | error msg => rw [ha] at h; exact Except.noConfusion h
  | ok tp =>
    rw [ha] at h
    obtain ⟨tags, pages⟩ := tp
    simp only [Except.ok.injEq] at h
    subst h
    intro g hg
    rcases List.mem_append.mp hg with h1 | h2
    · rcases List.mem_map.mp h1 with ⟨p, hp, hpe⟩
      rw [← hpe]
      exact create_file_isGenerated _ _ _ _ _ _ _
    · have hge := List.mem_singleton.mp h2
      rw [hge]
      exact tagpage_isGenerated _ _ _ _ _

/-- C4: running the orchestrator a second time on its own output, with
the same inputs and configuration, removes the generated pages it wrote
and regenerates exactly the same directory contents: the full rebuild is
deterministic and idempotent. -/
theorem update_tags_idempotent (app : AppConfig) (files : List SrcFile)
    (dir d1 : BuildDir) (h : update_tags app files dir = Except.ok d1) :
    update_tags app files d1 = Except.ok d1 := by
  unfold update_tags at h ⊢
  by_cases happ : app.tags_create_tags = true
  · rw [if_pos happ] at h ⊢
    cases hg : generatedPages app files with
    | error msg =>
      rw [hg] at h
      exact Except.noConfusion h
    | ok gen =>
      rw [hg] at h
      injection h with h2
      subst h2
      rw [removeStale_writeAll gen _ (generatedPages_names app files gen hg),
        removeStale_idem]
  · rw [if_neg happ]

/-- Witness for C4: a concrete two-document rst build over a directory
holding one stale generated page and one unrelated file. -/
theorem update_tags_idempotent_witness :
    ∃ d1, update_tags { setupConfig "docs" with tags_create_tags := true }
        [SrcFile.mk "docs/a.rst" ["Alpha, Beta"], SrcFile.mk "docs/b.rst" ["Beta"]]
        [("keep.txt", ["hi"]), ("Old.rst", ["stale"])] = Except.ok d1 ∧
      update_tags { setupConfig "docs" with tags_create_tags := true }
        [SrcFile.mk "docs/a.rst" ["Alpha, Beta"], SrcFile.mk "docs/b.rst" ["Beta"]]
        d1 = Except.ok d1 :=
  ⟨_, rfl, update_tags_idempotent _ _ _ _ rfl⟩

/-- C6: a file whose name ends in none of the three supported extensions
makes Entry construction fail with the message enumerating ".rst", ".md"
and ".ipynb"; nothing catches the error, so one unsupported file aborts
assign_entries and with it the whole enabled build pass. -/
theorem unsupported_extension_fatal (f : SrcFile)
    (h : supportedPath f.path = false) :
    Entry.init f = Except.error extensionErrorMsg ∧
    extensionErrorMsg =
      "Unknown file extension. Currently, only .rst, .md .ipynb are supported." ∧
    ∀ files : List SrcFile, f ∈ files →
      assign_entries files = Except.error extensionErrorMsg ∧
      ∀ (app : AppConfig) (dir : BuildDir), app.tags_create_tags = true →
        update_tags app files dir = Except.error extensionErrorMsg := by
  refine ⟨entry_init_error f h, rfl, ?_⟩
  intro files hf
  have hassign : assign_entries files = Except.error extensionErrorMsg :=
    assign_aux_error files [] [] ⟨f, hf, h⟩
  refine ⟨hassign, ?_⟩
  intro app dir happ
  unfold update_tags
  rw [if_pos happ]
  unfold generatedPages
  rw [hassign]

/-- Witness for C6: a .txt file aborts construction, the scan loop and
the enabled orchestrator, even with a valid file processed first. -/
theorem unsupported_extension_fatal_witness :
    Entry.init (SrcFile.mk "docs/notes.txt" ["x"]) = Except.error extensionErrorMsg ∧
    assign_entries
        [SrcFile.mk "docs/a.rst" ["Alpha"], SrcFile.mk "docs/notes.txt" ["x"]] =
      Except.error extensionErrorMsg ∧
    update_tags { setupConfig "docs" with tags_create_tags := true }
        [SrcFile.mk "docs/a.rst" ["Alpha"], SrcFile.mk "docs/notes.txt" ["x"]] [] =
      Except.error extensionErrorMsg := by
  obtain ⟨h1, h2, h3⟩ :=
    unsupported_extension_fatal (SrcFile.mk "docs/notes.txt" ["x"]) (by decide)
  obtain ⟨ha, hu⟩ := h3
    [SrcFile.mk "docs/a.rst" ["Alpha"], SrcFile.mk "docs/notes.txt" ["x"]]
    (by decide)
  exact ⟨h1, ha, hu _ [] rfl⟩

/-- C7: page generation emits exactly one file per tag, named by the
underscored tag name with the dialect chosen by an either/or test in
which a configured "md" wins; a full generation pass therefore emits
exactly one file per registry tag plus the single overview page. -/
theorem one_file_per_tag :
    (∀ (tg : Tag) (items : List Entry) (extension : List String)
        (tod srcdir tpt tph : String),
        (tg.create_file items extension tod srcdir tpt tph).1 =
          underscores tg.name ++
            (if extension.contains "md" then ".md" else ".rst")) ∧
    ∀ (app : AppConfig) (files : List SrcFile) (tags : List (String × Tag))
      (pages : List Entry),
      assign_entries files = Except.ok (tags, pages) →
      ∃ gen, generatedPages app files = Except.ok gen ∧
        gen.length = tags.length + 1 := by
  refine ⟨create_file_fst, ?_⟩
  intro app files tags pages h
  have hg : generatedPages app files = Except.ok
      ((tags.map (fun p =>
          p.2.create_file (pages.filter (fun item => item.tags.contains p.2.name))
            app.tags_extension app.tags_output_dir app.srcdir
            app.tags_page_title app.tags_page_header))
        ++ [tagpage tags app.tags_output_dir app.tags_overview_title
              app.tags_extension app.tags_index_head]) := by
    unfold generatedPages
    rw [h]
  exact ⟨_, hg, by simp⟩

/-- Witness for C7: a spaced tag name with both dialects configured maps
to the single markdown file, and a one-tag build emits two files. -/
theorem one_file_per_tag_witness :
    ((Tag.mk "machine learning" []).create_file [] ["rst", "md"] "_tags" "docs"
        "My tags" "With this tag").1 = "machine_learning.md" ∧
    ∃ gen, generatedPages (setupConfig "docs")
        [SrcFile.mk "docs/a.rst" ["Alpha"]] = Except.ok gen ∧
      gen.length = 2 := by
  constructor
  · rw [one_file_per_tag.1]
    decide
  · obtain ⟨gen, hg, hl⟩ := one_file_per_tag.2 (setupConfig "docs")
      [SrcFile.mk "docs/a.rst" ["Alpha"]] _ _ rfl
    refine ⟨gen, hg, ?_⟩
    rw [hl]
    rfl

/-- C8: badge-color resolution scans the configured pattern-to-color
mapping in iteration order and returns the color of the first pattern
the tag name glob-matches; if nothing matches (in particular when the
mapping is empty) it returns the default token "primary". -/
theorem badge_color_resolution :
    (∀ (tag_colors : List (String × String)) (tag : String),
        (∀ pc ∈ tag_colors, fnmatch tag pc.1 = false) →
        get_tag_color tag_colors tag = "primary") ∧
    ∀ (pre : List (String × String)) (pattern color : String)
      (post : List (String × String)) (tag : String),
      (∀ pc ∈ pre, fnmatch tag pc.1 = false) → fnmatch tag pattern = true →
      get_tag_color (pre ++ (pattern, color) :: post) tag = color := by
  constructor
  · intro tag_colors tag h
    induction tag_colors with
    | nil => rfl
    | cons pc rest ih =>
      have h1 : fnmatch tag pc.1 = false := h pc (List.mem_cons_self _ _)
      obtain ⟨pat, col⟩ := pc
      simp only at h1
      simp only [get_tag_color, h1, Bool.false_eq_true, if_false]
      exact ih (fun q hq => h q (List.mem_cons_of_mem _ hq))
  · intro pre pattern color post tag hpre hmatch
    induction pre with
    | nil =>
      simp only [List.nil_append, get_tag_color, hmatch, if_true]
    | cons pc rest ih =>
      have h1 : fnmatch tag pc.1 = false := hpre pc (List.mem_cons_self _ _)
      obtain ⟨pat, col⟩ := pc
      simp only at h1
      simp only [List.cons_append, get_tag_color, h1, Bool.false_eq_true, if_false]
      exact ih (fun q hq => hpre q (List.mem_cons_of_mem _ hq))

/-- Witness for C8: a matching glob yields its color; a non-matching tag
and an empty mapping yield "primary".  (Note `fnmatch` requires the
literal prefix "rel-", which "release-1" does not have.) -/
theorem badge_color_resolution_witness :
    get_tag_color [("rel-*", "red")] "rel-1" = "red" ∧
    get_tag_color [("rel-*", "red")] "release-1" = "primary" ∧
    get_tag_color [] "misc" = "primary" := by
  refine ⟨?_, ?_, ?_⟩
  · exact badge_color_resolution.2 [] "rel-*" "red" [] "rel-1" (by simp) (by decide)
  · exact badge_color_resolution.1 [("rel-*", "red")] "release-1" (by decide)
  · exact badge_color_resolution.1 [] "misc" (by simp)

/-- C9: registration preserves the registry invariant - every Entry in a
Tag's item list declares that tag's name - and the registry produced by
a successful scan loop satisfies it (registration through
Entry.assign_to_tags being the only operation that adds items). -/
theorem registry_membership_invariant :
    (∀ (e : Entry) (d : List (String × Tag)), RegistryInv d →
        RegistryInv (e.assign_to_tags d)) ∧
    ∀ (files : List SrcFile) (tags : List (String × Tag)) (pages : List Entry),
      assign_entries files = Except.ok (tags, pages) → RegistryInv tags := by
  constructor
  · exact registryInv_assign_to_tags
  · intro files tags pages h
    exact assign_aux_inv files [] [] tags pages h
      (fun p hp => absurd hp (List.not_mem_nil p))

/-- Witness for C9: the invariant after registering one entry with a
duplicate tag, and after a full concrete scan. -/
theorem registry_membership_invariant_witness :
    RegistryInv ((Entry.mk "docs/a.rst" ["Alpha", "Alpha", "Beta"]).assign_to_tags []) ∧
    ∃ tags pages, assign_entries [SrcFile.mk "docs/a.rst" ["Alpha, Beta"]] =
        Except.ok (tags, pages) ∧ RegistryInv tags := by
  constructor
  · exact registry_membership_invariant.1 _ []
      (fun p hp => absurd hp (List.not_mem_nil p))
  · exact ⟨_, _, rfl, registry_membership_invariant.2
      [SrcFile.mk "docs/a.rst" ["Alpha, Beta"]] _ _ rfl⟩

/-- C2: per-tag page entry ordering is asymmetric by output dialect:
with "md" among the configured extensions the associated documents are
listed in exactly the order they were appended (no sort); otherwise the
rst page lists a permutation of them sorted ascending by file path,
under pathlib's component-wise path order (`entryPathLt`). -/
theorem create_file_ordering_by_dialect (tg : Tag) (items : List Entry)
    (extension : List String) (tod srcdir tpt tph : String) :
    (extension.contains "md" = true →
      (tg.create_file items extension tod srcdir tpt tph).2 =
        ["# " ++ tpt ++ ": " ++ tg.name, "", "```{toctree}", "---", "maxdepth: 1",
         "caption: " ++ tph, "---"]
        ++ items.map (fun item => "../" ++ relpathFrom srcdir item.filepath)
        ++ ["```", ""]) ∧
    (extension.contains "md" = false →
      (sortBy entryPathLt items).Perm items ∧
      (sortBy entryPathLt items).Pairwise (fun a b => entryPathLt b a = false) ∧
      (tg.create_file items extension tod srcdir tpt tph).2 =
        [tpt ++ ": " ++ tg.name,
         String.mk (List.replicate (tg.name.length + tpt.length + 2) '#'),
         "", ".. toctree::", "    :maxdepth: 1", "    :caption: " ++ tph, ""]
        ++ (sortBy entryPathLt items).map
             (fun item => "    ../" ++ relpathFrom srcdir item.filepath)
        ++ [""]) := by
  constructor
  · intro h
    unfold Tag.create_file
    rw [if_pos h]
  · intro h
    refine ⟨sortBy_perm entryPathLt items,
      sortBy_pairwise entryPathLt entryPathLt_asymm entryPathLt_trans items, ?_⟩
    unfold Tag.create_file
    rw [if_neg (by simp only [h]; simp)]

/-- Witness for C2: a three-document fixture with out-of-order paths,
one in a nested directory, is listed as-is in the markdown dialect and
Path-sorted in the rst dialect - component-wise, so `docs/a/b.rst`
precedes `docs/a.rst`, as `pathlib` orders them (raw string order would
reverse those two). -/
theorem create_file_ordering_by_dialect_witness :
    ((Tag.mk "Alpha" []).create_file
        [Entry.mk "docs/b.rst" [], Entry.mk "docs/a.rst" [],
         Entry.mk "docs/a/b.rst" []]
        ["md"] "_tags" "docs" "My tags" "With this tag").2 =
      ["# My tags: Alpha", "", "```{toctree}", "---", "maxdepth: 1",
       "caption: With this tag", "---", "../b.rst", "../a.rst", "../a/b.rst",
       "```", ""] ∧
    ((Tag.mk "Alpha" []).create_file
        [Entry.mk "docs/b.rst" [], Entry.mk "docs/a.rst" [],
         Entry.mk "docs/a/b.rst" []]
        ["rst"] "_tags" "docs" "My tags" "With this tag").2 =
      ["My tags: Alpha", "##############", "", ".. toctree::", "    :maxdepth: 1",
       "    :caption: With this tag", "", "    ../a/b.rst", "    ../a.rst",
       "    ../b.rst", ""] := by
  constructor
  · rw [(create_file_ordering_by_dialect (Tag.mk "Alpha" [])
      [Entry.mk "docs/b.rst" [], Entry.mk "docs/a.rst" [],
       Entry.mk "docs/a/b.rst" []]
      ["md"] "_tags" "docs" "My tags" "With this tag").1 rfl]
    rfl
  · rw [((create_file_ordering_by_dialect (Tag.mk "Alpha" [])
      [Entry.mk "docs/b.rst" [], Entry.mk "docs/a.rst" [],
       Entry.mk "docs/a/b.rst" []]
      ["rst"] "_tags" "docs" "My tags" "With this tag").2 rfl).2.2]
    rfl

/-- C3: the overview page lists every registry tag sorted ascending by
tag name under either dialect; each listed entry shows the display name,
its item count in parentheses, and a link to the underscored per-tag
page name. -/
theorem tagpage_overview_sorted (tags : List (String × Tag)) (outdir title : String)
    (extension : List String) (tih : String) :
    ∃ sorted_tags : List Tag,
      sorted_tags.Perm (tags.map (fun p => p.2)) ∧
      sorted_tags.Pairwise (fun a b => tagNameLt b a = false) ∧
      (extension.contains "md" = true →
        tagpage tags outdir title extension tih =
          ("tagsindex.md",
            ["(tagoverview)=", "", "# " ++ title, "", "```{toctree}", "---",
             "caption: " ++ tih, "maxdepth: 1", "---"]
            ++ sorted_tags.map (fun tag =>
                  tag.name ++ " (" ++ toString tag.items.length ++ ") <" ++
                    underscores tag.name ++ ">")
            ++ ["```", ""])) ∧
      (extension.contains "md" = false →
        tagpage tags outdir title extension tih =
          ("tagsindex.rst",
            [":orphan:", "", ".. _tagoverview:", "", title,
             String.mk (List.replicate title.length '#'), "",
             ".. toctree::", "    :caption: " ++ tih, "    :maxdepth: 1", ""]
            ++ sorted_tags.map (fun tag =>
                  "    " ++ tag.name ++ " (" ++ toString tag.items.length ++
                    ") <" ++ underscores tag.name ++ ".rst>")
            ++ [""])) := by
  refine ⟨sortBy tagNameLt (tags.map (fun p => p.2)), sortBy_perm _ _,
    sortBy_pairwise _ tagNameLt_asymm tagNameLt_trans _, ?_, ?_⟩
  · intro h
    unfold tagpage
    rw [if_pos h]
  · intro h
    unfold tagpage
    rw [if_neg (by simp only [h]; simp)]

/-- Witness for C3: the zeta/alpha fixture in the markdown dialect, plus
the concrete check that alpha sorts before zeta. -/
theorem tagpage_overview_sorted_witness :
    (∃ sorted_tags : List Tag,
      sorted_tags.Perm [Tag.mk "zeta" [], Tag.mk "alpha" []] ∧
      sorted_tags.Pairwise (fun a b => tagNameLt b a = false) ∧
      tagpage [("zeta", Tag.mk "zeta" []), ("alpha", Tag.mk "alpha" [])] "_tags"
          "Tags overview" ["md"] "Tags" =
        ("tagsindex.md",
          ["(tagoverview)=", "", "# Tags overview", "", "```{toctree}", "---",
           "caption: Tags", "maxdepth: 1", "---"]
          ++ sorted_tags.map (fun tag =>
                tag.name ++ " (" ++ toString tag.items.length ++ ") <" ++
                  underscores tag.name ++ ">")
          ++ ["```", ""])) ∧
    sortBy tagNameLt [Tag.mk "zeta" [], Tag.mk "alpha" []] =
      [Tag.mk "alpha" [], Tag.mk "zeta" []] := by
  constructor
  · obtain ⟨s, hp, hs, hmd, _⟩ := tagpage_overview_sorted
      [("zeta", Tag.mk "zeta" []), ("alpha", Tag.mk "alpha" [])] "_tags"
      "Tags overview" ["md"] "Tags"
    exact ⟨s, hp, hs, hmd rfl⟩
  · decide

/-- C5: for every supported input file, Entry construction succeeds and
its tag list accumulates, over the matched markers in order, the
comma-split and whitespace-trimmed pieces of each captured text, with
empty strings preserved. -/
theorem entry_extraction_split_trim_accumulate :
    (∀ f : SrcFile, supportedPath f.path = true →
        Entry.init f = Except.ok (Entry.mk f.path (extractTags f.captures))) ∧
    (∀ (c : String) (cs : List String),
        extractTags (c :: cs) = (splitComma c).map pyStrip ++ extractTags cs) ∧
    (∀ cs1 cs2 : List String,
        extractTags (cs1 ++ cs2) = extractTags cs1 ++ extractTags cs2) ∧
    extractTags [" Alpha , Beta ,, "] = ["Alpha", "Beta", "", ""] := by
  refine ⟨entry_init_ok_of_supported, ?_, ?_, by decide⟩
  · intro c cs
    rfl
  · intro cs1 cs2
    simp [extractTags]

/-- Witness for C5: an .ipynb file with two markers accumulates both
capture groups, trimming and keeping empties. -/
theorem entry_extraction_split_trim_accumulate_witness :
    Entry.init (SrcFile.mk "docs/a.ipynb" [" Alpha , Beta ,, ", "Gamma"]) =
      Except.ok (Entry.mk "docs/a.ipynb" ["Alpha", "Beta", "", "", "Gamma"]) :=
  (entry_extraction_split_trim_accumulate.1
    (SrcFile.mk "docs/a.ipynb" [" Alpha , Beta ,, ", "Gamma"]) (by decide)).trans rfl

/-- The per-tag page lists a "../"-prefixed relative reference for every
item passed to it, in either dialect. -/
theorem create_file_mem_line (tg : Tag) (items : List Entry)
    (extension : List String) (tod srcdir tpt tph : String) (e : Entry)
    (he : e ∈ items) :
    ((if extension.contains "md" then "../" else "    ../") ++
      relpathFrom srcdir e.filepath) ∈
      (tg.create_file items extension tod srcdir tpt tph).2 := by
  unfold Tag.create_file
  by_cases h : extension.contains "md" = true
  · rw [if_pos h, if_pos h]
    apply List.mem_append_left
    apply List.mem_append_right
    exact List.mem_map.mpr ⟨e, he, rfl⟩
  · rw [if_neg h, if_neg h]
    apply List.mem_append_left
    apply List.mem_append_right
    exact List.mem_map.mpr
      ⟨e, (sortBy_perm entryPathLt items).mem_iff.mpr he, rfl⟩

/-- C1: after a full enabled build pass, for every scanned document and
every tag name in its declared-tag list, the generation pass emits a
page for that tag whose content lists the document as a forward-slash
relative path prefixed with "../" (indented in the rst dialect). -/
theorem tag_page_lists_tagged_documents (app : AppConfig) (files : List SrcFile)
    (dir d1 : BuildDir) (f : SrcFile) (t : String)
    (henabled : app.tags_create_tags = true)
    (hbuild : update_tags app files dir = Except.ok d1)
    (hf : f ∈ files) (ht : t ∈ extractTags f.captures) :
    ∃ gen content,
      generatedPages app files = Except.ok gen ∧
      (underscores t ++
        (if app.tags_extension.contains "md" then ".md" else ".rst"), content) ∈ gen ∧
      ((if app.tags_extension.contains "md" then "../" else "    ../") ++
        relpathFrom app.srcdir f.path) ∈ content := by
  unfold update_tags at hbuild
  rw [if_pos henabled] at hbuild
  cases hg : generatedPages app files with
  | error msg =>
    rw [hg] at hbuild
    exact Except.noConfusion hbuild
  | ok gen =>
    unfold generatedPages at hg
    cases ha : assign_entries files with
    | error msg =>
      rw [ha] at hg
      exact Except.noConfusion hg
    | ok tp =>
      obtain ⟨tags, pages⟩ := tp
      rw [ha] at hg
      injection hg with hg2
      unfold assign_entries at ha
      obtain ⟨hps, hfs⟩ := assign_aux_pages files [] [] tags pages ha
      obtain ⟨e, hinit, hepages⟩ := hfs f hf
      have he : e = Entry.mk f.path (extractTags f.captures) :=
        entry_init_ok_eq f e hinit
      subst he
      have hkeys := assign_aux_keys files [] [] tags pages ha
        (fun x hx => absurd hx (List.not_mem_nil x))
      have hket : hasKey tags t = true := hkeys _ hepages t ht
      have hinv := assign_aux_inv files [] [] tags pages ha
        (fun p hp => absurd hp (List.not_mem_nil p))
      obtain ⟨tg, htg, hitems⟩ := exists_pair_of_hasKey tags t hket
      have hname : tg.name = t := (hinv (t, tg) htg).1
      have hpmem : Tag.create_file tg
          (pages.filter (fun item => item.tags.contains tg.name))
          app.tags_extension app.tags_output_dir app.srcdir
          app.tags_page_title app.tags_page_header ∈ gen := by
        rw [← hg2]
        exact List.mem_append_left _ (List.mem_map.mpr ⟨(t, tg), htg, rfl⟩)
      have hef : Entry.mk f.path (extractTags f.captures) ∈
          pages.filter (fun item => item.tags.contains tg.name) := by
        apply List.mem_filter.mpr
        refine ⟨hepages, ?_⟩
        rw [hname]
        show (Entry.mk f.path (extractTags f.captures)).tags.elem t = true
        exact List.elem_iff.mpr ht
      have hline := create_file_mem_line tg
        (pages.filter (fun item => item.tags.contains tg.name))
        app.tags_extension app.tags_output_dir app.srcdir
        app.tags_page_title app.tags_page_header
        (Entry.mk f.path (extractTags f.captures)) hef
      have hfst : (Tag.create_file tg
          (pages.filter (fun item => item.tags.contains tg.name))
          app.tags_extension app.tags_output_dir app.srcdir
          app.tags_page_title app.tags_page_header).1 =
          underscores t ++
            (if app.tags_extension.contains "md" then ".md" else ".rst") := by
        rw [create_file_fst, hname]
      refine ⟨gen, (Tag.create_file tg
          (pages.filter (fun item => item.tags.contains tg.name))
          app.tags_extension app.tags_output_dir app.srcdir
          app.tags_page_title app.tags_page_header).2, rfl, ?_, ?_⟩
      · rw [← hfst, Prod.mk.eta]
        exact hpmem
      · exact hline

/-- Witness for C1: a concrete two-document rst build; the Beta page
lists the nested document via its "../"-prefixed relative path. -/
theorem tag_page_lists_tagged_documents_witness :
    ∃ gen content,
      generatedPages { setupConfig "docs" with tags_create_tags := true }
        [SrcFile.mk "docs/b.rst" ["Beta"],
         SrcFile.mk "docs/sub/a.rst" [" Alpha, Beta"]] = Except.ok gen ∧
      ("Beta.rst", content) ∈ gen ∧
      ("    ../sub/a.rst" : String) ∈ content := by
  obtain ⟨gen, content, hg, hmem, hline⟩ := tag_page_lists_tagged_documents
    { setupConfig "docs" with tags_create_tags := true }
    [SrcFile.mk "docs/b.rst" ["Beta"], SrcFile.mk "docs/sub/a.rst" [" Alpha, Beta"]]
    [] _ (SrcFile.mk "docs/sub/a.rst" [" Alpha, Beta"]) "Beta" rfl rfl
    (by decide) (by decide)
  exact ⟨gen, content, hg, hmem, hline⟩

/-- C10: a document that declares tag t n > 1 times appears n times in
the registry's item list for t, and the overview page reports count n,
yet the generated per-tag page lists the document exactly once, because
update_tags rebuilds the listing by filtering the full page list on tag
membership instead of using the registry's duplicate-containing items. -/
theorem duplicate_tags_counted_listed_once (srcdir path : String)
    (caps : List String) (t : String)
    (hpath : pyEndsWith path ".md" = true)
    (hn : 1 < (extractTags caps).count t) :
    ∃ tags gen,
      assign_entries [SrcFile.mk path caps] =
        Except.ok (tags, [Entry.mk path (extractTags caps)]) ∧
      itemsOf tags t =
        List.replicate ((extractTags caps).count t)
          (Entry.mk path (extractTags caps)) ∧
      generatedPages
          { setupConfig srcdir with
              tags_create_tags := true
              tags_extension := ["md"] } [SrcFile.mk path caps] = Except.ok gen ∧
      (∃ ov, ("tagsindex.md", ov) ∈ gen ∧
        (t ++ " (" ++ toString ((extractTags caps).count t) ++ ") <" ++
          underscores t ++ ">") ∈ ov) ∧
      (underscores t ++ ".md",
        ["# My tags: " ++ t, "", "```{toctree}", "---", "maxdepth: 1",
         "caption: With this tag", "---",
         "../" ++ relpathFrom srcdir path, "```", ""]) ∈ gen := by
  have hsupp : supportedPath path = true := by
    unfold supportedPath
    rw [hpath]
    simp
  have ha : assign_entries [SrcFile.mk path caps] =
      Except.ok ((Entry.mk path (extractTags caps)).assign_to_tags [],
        [Entry.mk path (extractTags caps)]) := by
    unfold assign_entries assign_entries_aux
    rw [entry_init_ok_of_supported (SrcFile.mk path caps) hsupp]
    rfl
  have hmemt : t ∈ extractTags caps :=
    List.count_pos_iff.mp (Nat.lt_trans Nat.zero_lt_one hn)
  have hitems : itemsOf ((Entry.mk path (extractTags caps)).assign_to_tags []) t =
      List.replicate ((extractTags caps).count t)
        (Entry.mk path (extractTags caps)) := by
    rw [itemsOf_assign_to_tags]
    simp [itemsOf]
  have hkey : hasKey ((Entry.mk path (extractTags caps)).assign_to_tags []) t
      = true := by
    rw [hasKey_assign_to_tags]
    have hc0 : (Entry.mk path (extractTags caps)).tags.contains t = true := by
      show (extractTags caps).elem t = true
      exact List.elem_iff.mpr hmemt
    rw [hc0, Bool.or_true]
  have hinv := registryInv_assign_to_tags (Entry.mk path (extractTags caps)) []
    (fun p hp => absurd hp (List.not_mem_nil p))
  obtain ⟨tg, htg, htgitems⟩ := exists_pair_of_hasKey _ t hkey
  have hname : tg.name = t := (hinv (t, tg) htg).1
  have htgitems2 : tg.items = List.replicate ((extractTags caps).count t)
      (Entry.mk path (extractTags caps)) := htgitems.trans hitems
  have hG : generatedPages
      { setupConfig srcdir with
          tags_create_tags := true
          tags_extension := ["md"] } [SrcFile.mk path caps] = Except.ok
      ((((Entry.mk path (extractTags caps)).assign_to_tags []).map (fun p =>
          p.2.create_file
            ([Entry.mk path (extractTags caps)].filter
              (fun item => item.tags.contains p.2.name))
            ["md"] "_tags" srcdir "My tags" "With this tag"))
        ++ [tagpage ((Entry.mk path (extractTags caps)).assign_to_tags [])
              "_tags" "Tags overview" ["md"] "Tags"]) := by
    unfold generatedPages
    rw [ha]
    rfl
  refine ⟨(Entry.mk path (extractTags caps)).assign_to_tags [], _, ha, hitems,
    hG, ?_, ?_⟩
  · refine ⟨(tagpage ((Entry.mk path (extractTags caps)).assign_to_tags [])
        "_tags" "Tags overview" ["md"] "Tags").2, ?_, ?_⟩
    · have hfst2 : (tagpage ((Entry.mk path (extractTags caps)).assign_to_tags [])
          "_tags" "Tags overview" ["md"] "Tags").1 = "tagsindex.md" := by
        rw [tagpage_fst]
        decide
      rw [← hfst2, Prod.mk.eta]
      exact List.mem_append_right _ (List.mem_singleton.mpr rfl)
    · have hcontent : (tagpage ((Entry.mk path (extractTags caps)).assign_to_tags [])
          "_tags" "Tags overview" ["md"] "Tags").2 =
          ["(tagoverview)=", "", "# Tags overview", "", "```{toctree}", "---",
           "caption: Tags", "maxdepth: 1", "---"]
          ++ (sortBy tagNameLt
                (((Entry.mk path (extractTags caps)).assign_to_tags []).map
                  (fun p => p.2))).map (fun tag =>
                tag.name ++ " (" ++ toString tag.items.length ++ ") <" ++
                  underscores tag.name ++ ">")
          ++ ["```", ""] := by
        unfold tagpage
        rw [if_pos (by decide)]
        rfl
      rw [hcontent]
      apply List.mem_append_left
      apply List.mem_append_right
      refine List.mem_map.mpr ⟨tg, ?_, ?_⟩
      · apply (sortBy_perm tagNameLt _).mem_iff.mpr
        exact List.mem_map.mpr ⟨(t, tg), htg, rfl⟩
      · rw [hname, htgitems2]
        simp
  · have hc : (Entry.mk path (extractTags caps)).tags.contains tg.name = true := by
      rw [hname]
      show (extractTags caps).elem t = true
      exact List.elem_iff.mpr hmemt
    have hfilter : [Entry.mk path (extractTags caps)].filter
        (fun item => item.tags.contains tg.name) =
        [Entry.mk path (extractTags caps)] := by
      simp only [List.filter_cons, hc, List.filter_nil, if_true]
    have helem : Tag.create_file tg
        ([Entry.mk path (extractTags caps)].filter
          (fun item => item.tags.contains tg.name))
        ["md"] "_tags" srcdir "My tags" "With this tag" =
        (underscores t ++ ".md",
         ["# My tags: " ++ t, "", "```{toctree}", "---", "maxdepth: 1",
          "caption: With this tag", "---",
          "../" ++ relpathFrom srcdir path, "```", ""]) := by
      rw [hfilter]
      unfold Tag.create_file
      rw [if_pos (by decide), hname]
      rfl
    exact List.mem_append_left _ (List.mem_map.mpr ⟨(t, tg), htg, helem⟩)

/-- Witness for C10: a document declaring tag x twice; the registry item
list holds it twice, the overview reports (2), the page lists it once. -/
theorem duplicate_tags_counted_listed_once_witness :
    ∃ tags gen,
      assign_entries [SrcFile.mk "docs/a.md" ["x, x"]] =
        Except.ok (tags, [Entry.mk "docs/a.md" ["x", "x"]]) ∧
      itemsOf tags "x" =
        List.replicate 2 (Entry.mk "docs/a.md" ["x", "x"]) ∧
      generatedPages
          { setupConfig "docs" with
              tags_create_tags := true
              tags_extension := ["md"] } [SrcFile.mk "docs/a.md" ["x, x"]] =
        Except.ok gen ∧
      (∃ ov, ("tagsindex.md", ov) ∈ gen ∧ ("x (2) <x>" : String) ∈ ov) ∧
      ("x.md",
        ["# My tags: x", "", "```{toctree}", "---", "maxdepth: 1",
         "caption: With this tag", "---", "../a.md", "```", ""]) ∈ gen := by
  obtain ⟨tags, gen, h1, h2, h3, h4, h5⟩ := duplicate_tags_counted_listed_once
    "docs" "docs/a.md" ["x, x"] "x" (by decide) (by decide)
  exact ⟨tags, gen, h1, h2, h3, h4, h5⟩
